import Mathlib

/-!
Verification development for the chromatic-polynomial core of `chrompoly`
(sources: `submap.c`, `matrix.c`, `chrompoly.c`, `array.h`).

The C data structures and the pipeline functions are embedded shallowly:
dynamic arrays become lists, `int` vertex labels and block indices become
`Nat` (all are non-negative throughout the pipeline), matrix entries and
Möbius/coefficient values become `Int`.  Every definition mirrors the
corresponding C function; deviations forced by the embedding (recursion
fuel, the cancellation schedule) are documented at the definition site.
-/

namespace Chrompoly

/-- A block of original vertex labels (C type `Vertex = array_int`, submap.c:19). -/
abbrev Vertex := List Nat

/-- An edge: a pair of block indices (C struct `Edge`, submap.c:13-16). -/
abbrev Edge := Nat × Nat

/-- C struct `Submap` (submap.c:22-25): a sequence of blocks plus an edge list. -/
structure Submap where
  vertices : List Vertex
  edges : List Edge
deriving DecidableEq, Repr, Inhabited

/-- `submap_eq` (submap.c:36-39): componentwise equality of the block sequence
(via `vertex_eq`, elementwise `int` equality) and of the edge list (via
`edge_eq`, fieldwise equality).  For lists this is exactly structural
equality. -/
def submap_eq (s1 s2 : Submap) : Bool := decide (s1 = s2)

/-- `in_submap_array` (submap.c:128-134): linear membership test via `submap_eq`. -/
def in_submap_array (submaps : List Submap) (submap : Submap) : Bool :=
  submaps.any (fun s => submap_eq s submap)

/-- The merged block produced when contracting edge `(i,j)`: the labels of
blocks `i` and `j` concatenated and sorted ascending (the `qsort` call with
comparator `cmp` in `get_direct_submaps`, submap.c:74-81). -/
def mergedBlock (V : List Vertex) (i j : Nat) : Vertex :=
  List.insertionSort (fun a b => a ≤ b) (V.getD i [] ++ V.getD j [])

/-- The block sequence of the child contracting edge `(i,j)` (vertex loop of
`get_direct_submaps`, submap.c:72-92): position `i` receives the merged
block, position `j` is dropped, all other blocks are copied. -/
def contractVertices (V : List Vertex) (i j : Nat) : List Vertex :=
  (List.range V.length).filterMap (fun k =>
    if k = i then some (mergedBlock V i j)
    else if k = j then none
    else some (V.getD k []))

/-- Image of one parent edge under contraction of `(i,j)` with `i < j`
(edge loop of `get_direct_submaps`, submap.c:97-121): the contracted edge
itself is dropped, edges incident to `i` or `j` are redirected to `i`,
indices above `j` are decremented, and results are normalised to
`(min,max)` form. -/
def contractEdgeMap (i j : Nat) (e : Edge) : Option Edge :=
  let k := e.1
  let l := e.2
  if (k = i ∧ l = j) ∨ (k = j ∧ l = i) then none
  else if k = i ∨ k = j then
    let lp := if j < l then l - 1 else l
    some (if lp < i then (lp, i) else (i, lp))
  else if l = i ∨ l = j then
    let kp := if j < k then k - 1 else k
    some (if kp < i then (kp, i) else (i, kp))
  else
    let kp := if j < k then k - 1 else k
    let lp := if j < l then l - 1 else l
    some (if kp < lp then (kp, lp) else (lp, kp))

/-- The edge list of the child contracting `(i,j)` (submap.c:94-121). -/
def contractEdges (E : List Edge) (i j : Nat) : List Edge :=
  E.filterMap (contractEdgeMap i j)

/-- `get_direct_submaps` (submap.c:55-126): one child per edge of the parent,
contracting that edge; the loop first swaps the endpoints so that `i < j`. -/
def get_direct_submaps (s : Submap) : List Submap :=
  s.edges.map (fun e =>
    let i := min e.1 e.2
    let j := max e.1 e.2
    { vertices := contractVertices s.vertices i j,
      edges := contractEdges s.edges i j })

/-- `_handle` (submap.c:136-156) for an uncancelled run (`graph_changed` and
`stop_flag` read false at every poll).  The accumulator `acc` models the
global `_all_submaps`.  The C recursion terminates because every child has
exactly one block fewer than its parent; `fuel` bounds the recursion depth
accordingly (callers pass the block count of the root submap). -/
def _handle : Nat → Submap → List Submap → List Submap
  | 0, _, acc => acc
  | fuel+1, s, acc =>
    if in_submap_array acc s then acc
    else
      let acc2 := if 1 < s.vertices.length then
          (get_direct_submaps s).foldl (fun a c => _handle fuel c a) acc
        else acc
      acc2 ++ [s]

/-- `get_all_submaps` (submap.c:158-167), uncancelled run: reset the global
set and run `_handle` on the root submap. -/
def get_all_submaps (s : Submap) : List Submap :=
  _handle s.vertices.length s []

/-- `from_graph` (submap.c:169-185): `n` singleton blocks plus a copy of the
given edge list. -/
def from_graph (n : Nat) (edges : List Edge) : Submap :=
  { vertices := (List.range n).map (fun i => [i]), edges := edges }

/-- `_find_node_idx` body (submap.c:202-209): index of the first block
containing label `n`, or `-1` if none does. -/
def findBlockIdx : List Vertex → Nat → Int
  | [], _ => -1
  | v :: rest, n =>
    if n ∈ v then 0
    else
      let r := findBlockIdx rest n
      if r = -1 then -1 else r + 1

/-- `_find_node_idx` (submap.c:202-209). -/
def _find_node_idx (s : Submap) (n : Nat) : Int := findBlockIdx s.vertices n

/-- `submap_ge` (submap.c:211-223): for every block of `s1`, all its labels
must be found at one and the same block index of `s2` (the index found for
the block's first label). -/
def submap_ge (s1 s2 : Submap) : Bool :=
  s1.vertices.all (fun v =>
    match v with
    | [] => true
    | n :: rest =>
      let idx := _find_node_idx s2 n
      rest.all (fun x => decide (_find_node_idx s2 x = idx)))

/-- Entry access for the embedded `WYMatrix` (matrix.c): row-major list of
rows; out-of-range access is absent in the verified runs. -/
def entry (M : List (List Int)) (i j : Nat) : Int := (M.getD i []).getD j 0

/-- `get_ordering_matrix` (submap.c:225-246), uncancelled run: entry `(i,j)`
is `1` iff `i ≤ j` and `submap_ge(submaps[j], submaps[i])`, else `0`. -/
def get_ordering_matrix (submaps : List Submap) : List (List Int) :=
  (List.range submaps.length).map (fun i =>
    (List.range submaps.length).map (fun j =>
      if i ≤ j ∧ submap_ge (submaps.getD j default) (submaps.getD i default) = true
      then (1 : Int) else 0))

/-- The inner accumulation loop of `get_mobius_of_column` (submap.c:264-266):
sum over all columns `k` of `unknowns[k] * M[j][k]`. -/
def mobiusSum (M : List (List Int)) (u : List Int) (j : Nat) : Int :=
  ∑ k in Finset.range M.length, u.getD k 0 * entry M j k

/-- The back-substitution loop of `get_mobius_of_column` (submap.c:258-270),
processing row indices `t-1, t-2, ..., 0` in that order. -/
def mobiusFrom (M : List (List Int)) : Nat → List Int → List Int
  | 0, u => u
  | t+1, u =>
    let unknown : Int := if t = M.length - 1 then 1 else - mobiusSum M u t
    mobiusFrom M t (u.set t (u.getD t 0 + unknown))

/-- `get_mobius_of_column` (submap.c:251-272). -/
def get_mobius_of_column (M : List (List Int)) : List Int :=
  mobiusFrom M M.length (List.replicate M.length 0)

/-- Loop body of `get_chromatic_polynomial` (submap.c:281-284): add the i-th
Möbius value at coefficient index `block count - 1` of the i-th submap. -/
def chromStep (submaps : List Submap) (mobiuses : List Int)
    (P : List Int) (i : Nat) : List Int :=
  let k := (submaps.getD i default).vertices.length - 1
  P.set k (P.getD k 0 + mobiuses.getD i 0)

/-- `get_chromatic_polynomial` (submap.c:274-287): coefficient array of length
`n`, adding each Möbius value at index `block count - 1` of its submap. -/
def get_chromatic_polynomial (n : Nat) (submaps : List Submap)
    (M : List (List Int)) : List Int :=
  (List.range (get_mobius_of_column M).length).foldl
    (chromStep submaps (get_mobius_of_column M)) (List.replicate n (0 : Int))

/-- Value of the coefficient array read as the polynomial
`Σ c[k] * x^(k+1)` (the representation stated in spec §3 and used by the
renderer): evaluation at an integer `q`. -/
def evalChromPoly (P : List Int) (q : Int) : Int :=
  ∑ k in Finset.range P.length, P.getD k 0 * q ^ (k + 1)

/-- One iteration of the worker-loop body of `calculate` (chrompoly.c:303-333)
for the schedule in which `graph_changed` holds the constant value `changed`
at every poll of the cycle (for `changed = true`: the editor sets the flag
immediately after the worker clears it at chrompoly.c:311-313, and it stays
set).  Result `some P` means the cycle ran `set_output_to_polynomial(&P)`
(chrompoly.c:332), i.e. published `P`; `none` means it published nothing
(the `n == 0` `continue`).  With the flag set, `_handle` returns at its very
first poll (submap.c:137-140), so `get_all_submaps` returns the empty
partial set; `calculate` nonetheless runs the remaining pipeline steps on it
and publishes. -/
def calculate_cycle (n : Nat) (edges : List Edge) (changed : Bool) :
    Option (List Int) :=
  if n = 0 then none
  else
    let submaps := if changed then [] else get_all_submaps (from_graph n edges)
    let M := get_ordering_matrix submaps
    some (get_chromatic_polynomial n submaps M)

/-! ### Specification-side predicates

These follow the spec's wording and are used to state the claims; they are
compared against the code-derived definitions above. -/

/-- Spec §3 Submap invariant on an edge list over `m` blocks: indices valid
and distinct (no self-loop). -/
def edges_wf (m : Nat) (E : List Edge) : Prop :=
  ∀ e ∈ E, e.1 < m ∧ e.2 < m ∧ e.1 ≠ e.2

/-- Spec §3 Submap invariant: no duplicate edge as an unordered pair. -/
def edges_nodup (E : List Edge) : Prop :=
  E.Pairwise (fun e f => ¬(e.1 = f.1 ∧ e.2 = f.2) ∧ ¬(e.1 = f.2 ∧ e.2 = f.1))

/-- Well-formedness of a submap: its edge list is valid over its block count. -/
def WFsub (s : Submap) : Prop := edges_wf s.vertices.length s.edges

/-- Spec glossary: `coarsens_spec b a` holds iff `b` is a coarsening of `a`,
i.e. every block of `a` is a subset of exactly one block of `b`.
(Modelled from the spec's words, for comparison with `submap_ge`.) -/
def coarsens_spec (b a : Submap) : Prop :=
  ∀ v ∈ a.vertices, ∃! k, k < b.vertices.length ∧ ∀ x ∈ v, x ∈ b.vertices.getD k []

/-- The blocks of a submap are pairwise disjoint (each label lies in at most
one block). -/
def blocksDisjoint (s : Submap) : Prop :=
  s.vertices.Pairwise (fun u w => ∀ x ∈ u, x ∉ w)

/-- Canonical block order (claim C10): every block is nonempty and sorted
ascending, and the block sequence is ordered by strictly increasing minimum
label (for sorted nonempty blocks, the minimum is the head). -/
def blocksCanonical (s : Submap) : Prop :=
  (∀ v ∈ s.vertices, v ≠ [] ∧ List.Sorted (fun a b => a ≤ b) v) ∧
  List.Sorted (fun a b => a < b) (s.vertices.map (fun v => v.headD 0))

instance edges_wf_dec (m : Nat) (E : List Edge) : Decidable (edges_wf m E) :=
  inferInstanceAs (Decidable (∀ e ∈ E, e.1 < m ∧ e.2 < m ∧ e.1 ≠ e.2))

instance edges_nodup_dec (E : List Edge) : Decidable (edges_nodup E) :=
  inferInstanceAs (Decidable (E.Pairwise _))

instance WFsub_dec (s : Submap) : Decidable (WFsub s) :=
  inferInstanceAs (Decidable (edges_wf _ _))

instance blocksDisjoint_dec (s : Submap) : Decidable (blocksDisjoint s) :=
  inferInstanceAs (Decidable (List.Pairwise _ _))

instance blocksCanonical_dec (s : Submap) : Decidable (blocksCanonical s) :=
  inferInstanceAs (Decidable (_ ∧ List.Sorted _ _))

/-- Index of the first occurrence of `x` in `L` (the insertion order index of
a member of the deduplicated submap set). -/
def firstIdx (L : List Submap) (x : Submap) : Nat :=
  match L with
  | [] => 0
  | a :: rest => if a = x then 0 else firstIdx rest x + 1

/-- Events touching the shared graph and its mutex, for the lock-discipline
claim C9.  `lockG`/`unlockG` are `mtx_lock(&nodes_mutex)` /
`mtx_unlock(&nodes_mutex)`; the access events are reads/writes of the shared
`nodes` and `edges` collections. -/
inductive GEvent where
  | lockG | unlockG | readNodes | readEdges | writeNodes | writeEdges
deriving DecidableEq, Repr

/-- Graph-resource events of one successful worker cycle of `calculate`
(chrompoly.c:318-325): lock, `active_node_count(&nodes)`, unlock, then
`from_graph(n, edges)` reads the shared edge list at line 324 with no lock
held. -/
def workerCycleTrace : List GEvent :=
  [GEvent.lockG, GEvent.readNodes, GEvent.unlockG, GEvent.readEdges]

/-- Graph-resource events of the editor's edge-creation path
(chrompoly.c:467-475): `add_edge(&edges, ...)` at line 470 writes the shared
edge list without taking `nodes_mutex` (only `graph_changed_mutex` is locked
afterwards). -/
def editorAddEdgeTrace : List GEvent :=
  [GEvent.writeEdges]

/-- Checks that every graph access in the event list happens while the graph
mutex is held (`depth` counts currently held locks). -/
def graphAccessesGuarded : List GEvent → Nat → Bool
  | [], _ => true
  | e :: rest, depth =>
    match e with
    | GEvent.lockG => graphAccessesGuarded rest (depth + 1)
    | GEvent.unlockG => graphAccessesGuarded rest (depth - 1)
    | _ => decide (0 < depth) && graphAccessesGuarded rest depth

/-! ### List helpers -/

lemma filterMap_congr_some {α β : Type} (f : α → Option β) (g : α → β)
    (l : List α) (h : ∀ a ∈ l, f a = some (g a)) : l.filterMap f = l.map g := by
  induction l with
  | nil => rfl
  | cons a t ih =>
    rw [List.filterMap_cons, h a (List.mem_cons_self a t), List.map_cons,
      ih (fun b hb => h b (List.mem_cons_of_mem a hb))]

lemma range_getD_map {α : Type} (l : List α) (d : α) :
    (List.range l.length).map (fun k => l.getD k d) = l := by
  induction l with
  | nil => rfl
  | cons a t ih =>
    rw [List.length_cons, List.range_succ_eq_map, List.map_cons, List.map_map]
    have h : ∀ k ∈ List.range t.length,
        ((fun k => (a :: t).getD k d) ∘ Nat.succ) k = t.getD k d := fun k _ => rfl
    rw [List.map_congr_left h, ih]
    rfl

lemma getD_map_range {α : Type} (g : Nat → α) (d : α) (n k : Nat) (hk : k < n) :
    ((List.range n).map g).getD k d = g k := by
  have hlen : k < ((List.range n).map g).length := by
    rw [List.length_map, List.length_range]; exact hk
  rw [List.getD_eq_getElem _ _ hlen, List.getElem_map, List.getElem_range]

lemma range_split (j r : Nat) :
    List.range (j + 1 + r) =
      List.range j ++ j :: (List.range r).map (fun t => j + 1 + t) := by
  have h1 : j + 1 + r = j + (1 + r) := by omega
  rw [h1, List.range_add]
  congr 1
  have h2 : List.range (1 + r) = 0 :: (List.range r).map (fun t => 1 + t) := by
    rw [List.range_add]; rfl
  rw [h2, List.map_cons, List.map_map, Nat.add_zero]
  congr 1
  apply List.map_congr_left
  intro t _
  simp only [Function.comp_apply]
  omega

lemma getD_set_self {α : Type} (l : List α) (i : Nat) (x d : α)
    (h : i < l.length) : (l.set i x).getD i d = x := by
  rw [List.getD_eq_getElem _ _ (by rw [List.length_set]; exact h),
    List.getElem_set_self]

lemma getD_set_ne {α : Type} (l : List α) (i k : Nat) (x d : α)
    (h : i ≠ k) : (l.set i x).getD k d = l.getD k d := by
  by_cases hk : k < l.length
  · rw [List.getD_eq_getElem _ _ (by rw [List.length_set]; exact hk),
      List.getElem_set_ne h, List.getD_eq_getElem _ _ hk]
  · have h1 : l.length ≤ k := Nat.le_of_not_lt hk
    rw [List.getD_eq_default _ _ (by rw [List.length_set]; exact h1),
      List.getD_eq_default _ _ h1]

lemma getD_replicate_self {α : Type} (n k : Nat) (d : α) :
    (List.replicate n d).getD k d = d := by
  induction n generalizing k with
  | zero => rfl
  | succ n ih =>
    cases k with
    | zero => rfl
    | succ k => exact ih k

/-! ### Structure of the contraction step -/

/-- Decomposition of the child block sequence for a well-formed contracted
edge `i < j < V.length`: blocks before `j` (with `i` replaced by the merged
block) followed by the blocks after `j`. -/
lemma contractVertices_eq_append (V : List Vertex) (i j : Nat)
    (hij : i < j) (hj : j < V.length) :
    contractVertices V i j =
      (List.range j).map (fun k => if k = i then mergedBlock V i j else V.getD k []) ++
      (List.range (V.length - 1 - j)).map (fun t => V.getD (j + 1 + t) []) := by
  have hlen : V.length = j + 1 + (V.length - 1 - j) := by omega
  have hr : List.range V.length =
      List.range j ++ j :: (List.range (V.length - 1 - j)).map (fun t => j + 1 + t) := by
    conv_lhs => rw [hlen]
    rw [range_split]
  unfold contractVertices
  rw [hr]
  rw [List.filterMap_append, List.filterMap_cons]
  have hfj : (if j = i then some (mergedBlock V i j)
      else if j = j then none else some (V.getD j [])) = none := by
    rw [if_neg (by omega), if_pos rfl]
  rw [hfj]
  congr 1
  · apply filterMap_congr_some
    intro k hk
    have hkj : k < j := List.mem_range.mp hk
    by_cases hki : k = i
    · rw [if_pos hki, if_pos hki]
    · rw [if_neg hki, if_neg (by omega), if_neg hki]
  · rw [List.filterMap_map]
    apply filterMap_congr_some
    intro t _
    simp only [Function.comp_apply]
    rw [if_neg (by omega), if_neg (by omega)]

lemma contractVertices_length (V : List Vertex) (i j : Nat)
    (hij : i < j) (hj : j < V.length) :
    (contractVertices V i j).length = V.length - 1 := by
  rw [contractVertices_eq_append V i j hij hj]
  rw [List.length_append, List.length_map, List.length_map,
    List.length_range, List.length_range]
  omega

/-- Every block of a child is the merged block (when the merge position is in
range) or a copy of a parent block. -/
lemma mem_contractVertices (V : List Vertex) (i j : Nat) (v : Vertex)
    (hv : v ∈ contractVertices V i j) :
    (v = mergedBlock V i j ∧ i < V.length) ∨ v ∈ V := by
  obtain ⟨k, hk, hf⟩ := List.mem_filterMap.mp hv
  have hkr : k < V.length := List.mem_range.mp hk
  by_cases hki : k = i
  · rw [if_pos hki] at hf
    exact Or.inl ⟨(Option.some_injective _ hf).symm, hki ▸ hkr⟩
  · rw [if_neg hki] at hf
    by_cases hkj : k = j
    · rw [if_pos hkj] at hf; exact absurd hf (by simp)
    · rw [if_neg hkj] at hf
      have := (Option.some_injective _ hf)
      rw [← this, List.getD_eq_getElem _ _ hkr]
      exact Or.inr (List.getElem_mem hkr)

/-- Validity of a child edge: a well-formed parent edge mapped through
`contractEdgeMap` for a contracted edge `i < j < m` stays in range over the
`m - 1` child blocks and remains a non-self-loop. -/
lemma contractEdgeMap_wf {m i j : Nat} (hij : i < j) (hj : j < m)
    (f : Edge) (hf1 : f.1 < m) (hf2 : f.2 < m) (hne : f.1 ≠ f.2)
    (e : Edge) (he : contractEdgeMap i j f = some e) :
    e.1 < m - 1 ∧ e.2 < m - 1 ∧ e.1 ≠ e.2 := by
  unfold contractEdgeMap at he
  by_cases h1 : (f.1 = i ∧ f.2 = j) ∨ (f.1 = j ∧ f.2 = i)
  · rw [if_pos h1] at he; exact absurd he (by simp)
  rw [if_neg h1] at he
  by_cases h2 : f.1 = i ∨ f.1 = j
  · rw [if_pos h2] at he
    simp only [] at he
    have hl1 : f.2 ≠ i := by omega
    have hl2 : f.2 ≠ j := by omega
    set lp := if j < f.2 then f.2 - 1 else f.2 with hlp
    have hlpi : lp ≠ i := by rw [hlp]; split <;> omega
    have hlpm : lp < m - 1 := by rw [hlp]; split <;> omega
    have him : i < m - 1 := by omega
    by_cases h3 : lp < i
    · rw [if_pos h3] at he
      have := Option.some_injective _ he
      rw [← this]
      exact ⟨hlpm, him, by omega⟩
    · rw [if_neg h3] at he
      have := Option.some_injective _ he
      rw [← this]
      exact ⟨him, hlpm, by omega⟩
  rw [if_neg h2] at he
  by_cases h4 : f.2 = i ∨ f.2 = j
  · rw [if_pos h4] at he
    simp only [] at he
    have hk1 : f.1 ≠ i := by omega
    have hk2 : f.1 ≠ j := by omega
    set kp := if j < f.1 then f.1 - 1 else f.1 with hkp
    have hkpi : kp ≠ i := by rw [hkp]; split <;> omega
    have hkpm : kp < m - 1 := by rw [hkp]; split <;> omega
    have him : i < m - 1 := by omega
    by_cases h5 : kp < i
    · rw [if_pos h5] at he
      have := Option.some_injective _ he
      rw [← this]
      exact ⟨hkpm, him, by omega⟩
    · rw [if_neg h5] at he
      have := Option.some_injective _ he
      rw [← this]
      exact ⟨him, hkpm, by omega⟩
  · rw [if_neg h4] at he
    simp only [] at he
    have hk1 : f.1 ≠ i := by omega
    have hk2 : f.1 ≠ j := by omega
    have hl1 : f.2 ≠ i := by omega
    have hl2 : f.2 ≠ j := by omega
    set kp := if j < f.1 then f.1 - 1 else f.1 with hkp
    set lp := if j < f.2 then f.2 - 1 else f.2 with hlp
    have hkpm : kp < m - 1 := by rw [hkp]; split <;> omega
    have hlpm : lp < m - 1 := by rw [hlp]; split <;> omega
    have hkl : kp ≠ lp := by
      rw [hkp, hlp]; split <;> split <;> omega
    by_cases h6 : kp < lp
    · rw [if_pos h6] at he
      have := Option.some_injective _ he
      rw [← this]
      exact ⟨hkpm, hlpm, hkl⟩
    · rw [if_neg h6] at he
      have := Option.some_injective _ he
      rw [← this]
      exact ⟨hlpm, hkpm, by omega⟩

/-- An edge of a well-formed submap, after the `i < j` swap, has `i < j` and
`j` in range. -/
lemma minmax_of_wf {s : Submap} (hs : WFsub s) {e : Edge} (he : e ∈ s.edges) :
    min e.1 e.2 < max e.1 e.2 ∧ max e.1 e.2 < s.vertices.length := by
  obtain ⟨h1, h2, h3⟩ := hs e he
  rw [Nat.min_def, Nat.max_def]
  split <;> omega

/-- Every child of a well-formed submap is well-formed and has exactly one
block fewer. -/
lemma get_direct_submaps_wf (s : Submap) (hs : WFsub s) :
    ∀ c ∈ get_direct_submaps s, WFsub c ∧ c.vertices.length + 1 = s.vertices.length := by
  intro c hc
  obtain ⟨e, he, hce⟩ := List.mem_map.mp hc
  obtain ⟨hij, hj⟩ := minmax_of_wf hs he
  subst hce
  simp only []
  have hlen := contractVertices_length s.vertices (min e.1 e.2) (max e.1 e.2) hij hj
  constructor
  · intro f hf
    obtain ⟨g, hg, hgf⟩ := List.mem_filterMap.mp hf
    obtain ⟨hg1, hg2, hg3⟩ := hs g hg
    have := contractEdgeMap_wf hij hj g hg1 hg2 hg3 f hgf
    rw [hlen]
    exact this
  · rw [hlen]; omega

/-- A well-formed submap with at most one block has no edges, hence no
children. -/
lemma get_direct_submaps_nil (s : Submap) (hs : WFsub s)
    (h1 : s.vertices.length ≤ 1) : get_direct_submaps s = [] := by
  unfold get_direct_submaps
  have he : s.edges = [] := by
    cases hE : s.edges with
    | nil => rfl
    | cons a t =>
      obtain ⟨ha1, ha2, ha3⟩ := hs a (by rw [hE]; exact List.mem_cons_self a t)
      omega
  rw [he, List.map_nil]

/-! ### Block lookup -/

/-- `findBlockIdx` finds the first block containing `n`. -/
lemma findBlockIdx_eq_of_mem (blocks : List Vertex) (n : Nat) (b : Nat)
    (hb : b < blocks.length) (hmem : n ∈ blocks.getD b [])
    (hnot : ∀ a, a < b → n ∉ blocks.getD a []) :
    findBlockIdx blocks n = (b : Int) := by
  induction blocks generalizing b with
  | nil => simp at hb
  | cons v rest ih =>
    cases b with
    | zero =>
      unfold findBlockIdx
      rw [if_pos (by exact hmem)]
      omega
    | succ b =>
      have hv : n ∉ v := hnot 0 (Nat.succ_pos b)
      unfold findBlockIdx
      rw [if_neg hv]
      have hrec : findBlockIdx rest n = (b : Int) := by
        apply ih b (by simpa using hb) (by exact hmem)
        intro a ha
        exact hnot (a + 1) (by omega)
      simp only [hrec]
      rw [if_neg (by omega)]
      omega

/-- `findBlockIdx` returns `-1` exactly on labels contained in no block. -/
lemma findBlockIdx_eq_neg_one (blocks : List Vertex) (n : Nat)
    (h : ∀ v ∈ blocks, n ∉ v) : findBlockIdx blocks n = -1 := by
  induction blocks with
  | nil => rfl
  | cons v rest ih =>
    unfold findBlockIdx
    rw [if_neg (h v (List.mem_cons_self v rest))]
    rw [ih (fun w hw => h w (List.mem_cons_of_mem v hw))]
    rfl

/-- Case analysis on the result of `findBlockIdx`. -/
lemma findBlockIdx_cases (blocks : List Vertex) (n : Nat) :
    (findBlockIdx blocks n = -1 ∧ ∀ v ∈ blocks, n ∉ v) ∨
    ∃ b : Nat, findBlockIdx blocks n = (b : Int) ∧ b < blocks.length ∧
      n ∈ blocks.getD b [] ∧ ∀ a, a < b → n ∉ blocks.getD a [] := by
  induction blocks with
  | nil => exact Or.inl ⟨rfl, by simp⟩
  | cons v rest ih =>
    by_cases hv : n ∈ v
    · refine Or.inr ⟨0, ?_, Nat.succ_pos _, hv, fun a ha => absurd ha (by omega)⟩
      unfold findBlockIdx
      rw [if_pos hv]
      omega
    · rcases ih with ⟨h1, h2⟩ | ⟨b, hb1, hb2, hb3, hb4⟩
      · refine Or.inl ⟨?_, ?_⟩
        · unfold findBlockIdx
          rw [if_neg hv, h1]
          rfl
        · intro w hw
          rcases List.mem_cons.mp hw with rfl | hw2
          · exact hv
          · exact h2 w hw2
      · refine Or.inr ⟨b + 1, ?_, by simpa using hb2, by exact hb3, ?_⟩
        · unfold findBlockIdx
          rw [if_neg hv, hb1, if_neg (by omega)]
          omega
        · intro a ha
          cases a with
          | zero => exact hv
          | succ a => exact hb4 a (by omega)

/-- With pairwise-disjoint blocks, `_find_node_idx` of any label of block `b`
is `b` itself. -/
lemma disjoint_find_node_idx (s : Submap) (hd : blocksDisjoint s)
    (b : Nat) (hb : b < s.vertices.length) (x : Nat)
    (hx : x ∈ s.vertices.getD b []) : _find_node_idx s x = (b : Int) := by
  apply findBlockIdx_eq_of_mem _ _ b hb hx
  intro a ha
  intro hxa
  have hpw := List.pairwise_iff_getElem.mp hd a b (by omega) hb ha
  rw [List.getD_eq_getElem _ _ (by omega)] at hxa
  rw [List.getD_eq_getElem _ _ hb] at hx
  exact hpw x hxa hx

/-- `submap_ge` is reflexive on submaps with pairwise-disjoint blocks. -/
lemma submap_ge_refl (s : Submap) (hd : blocksDisjoint s) :
    submap_ge s s = true := by
  unfold submap_ge
  rw [List.all_eq_true]
  intro v hv
  obtain ⟨b, hb, hvb⟩ := List.getElem_of_mem hv
  cases hveq : v with
  | nil => rfl
  | cons n rest =>
    have hgetD : s.vertices.getD b [] = n :: rest := by
      rw [List.getD_eq_getElem _ _ hb, hvb, hveq]
    simp only []
    rw [List.all_eq_true]
    intro x hx
    have h1 : _find_node_idx s n = (b : Int) :=
      disjoint_find_node_idx s hd b hb n (by rw [hgetD]; exact List.mem_cons_self n rest)
    have h2 : _find_node_idx s x = (b : Int) :=
      disjoint_find_node_idx s hd b hb x (by rw [hgetD]; exact List.mem_cons_of_mem n hx)
    rw [h1, h2]
    simp

/-! ### Back-substitution: structure of `get_mobius_of_column` -/

lemma mobiusFrom_succ (M : List (List Int)) (t : Nat) (u : List Int) :
    mobiusFrom M (t+1) u =
      mobiusFrom M t (u.set t (u.getD t 0 +
        if t = M.length - 1 then 1 else - mobiusSum M u t)) := rfl

lemma mobiusFrom_length (M : List (List Int)) :
    ∀ t u, (mobiusFrom M t u).length = u.length := by
  intro t
  induction t with
  | zero => intro u; rfl
  | succ t ih =>
    intro u
    rw [mobiusFrom_succ, ih, List.length_set]

/-- `mobiusFrom M t` only writes indices below `t`. -/
lemma mobiusFrom_getD_of_le (M : List (List Int)) :
    ∀ t u k, t ≤ k → (mobiusFrom M t u).getD k 0 = u.getD k 0 := by
  intro t
  induction t with
  | zero => intro u k _; rfl
  | succ t ih =>
    intro u k hk
    rw [mobiusFrom_succ, ih _ k (by omega)]
    exact getD_set_ne u t k _ 0 (by omega)

/-- Back-substitution invariant: starting from a state that is zero below the
counter (and long enough), every processed row ends up holding the
recurrence value, expressed against the final state. -/
lemma mobiusFrom_spec (M : List (List Int)) :
    ∀ t u, t ≤ u.length → (∀ k, k < t → u.getD k 0 = 0) → ∀ j, j < t →
    (mobiusFrom M t u).getD j 0 =
      if j = M.length - 1 then 1
      else -(∑ k in Finset.range M.length,
        if j < k then (mobiusFrom M t u).getD k 0 * entry M j k else 0) := by
  intro t
  induction t with
  | zero => intro u _ _ j hj; omega
  | succ t ih =>
    intro u hlen hu j hj
    rw [mobiusFrom_succ]
    set u2 := u.set t (u.getD t 0 + if t = M.length - 1 then 1 else - mobiusSum M u t)
      with hu2
    have hlen2 : t ≤ u2.length := by
      rw [hu2, List.length_set]
      omega
    have hu2low : ∀ k, k < t → u2.getD k 0 = 0 := by
      intro k hk
      rw [hu2, getD_set_ne u t k _ 0 (by omega)]
      exact hu k (by omega)
    rcases Nat.lt_or_ge j t with hjt | hjt
    · exact ih u2 hlen2 hu2low j hjt
    · have hjeq : j = t := by omega
      subst hjeq
      have hw : (mobiusFrom M j u2).getD j 0 = u2.getD j 0 :=
        mobiusFrom_getD_of_le M j u2 j (le_refl j)
      have hu2t : u2.getD j 0 =
          if j = M.length - 1 then 1 else - mobiusSum M u j := by
        rw [hu2, getD_set_self u j _ 0 (by omega), hu j (by omega), zero_add]
      rw [hw, hu2t]
      by_cases hte : j = M.length - 1
      · rw [if_pos hte, if_pos hte]
      · rw [if_neg hte, if_neg hte]
        congr 1
        unfold mobiusSum
        apply Finset.sum_congr rfl
        intro k hk
        by_cases htk : j < k
        · rw [if_pos htk]
          have hval : (mobiusFrom M j u2).getD k 0 = u.getD k 0 := by
            rw [mobiusFrom_getD_of_le M j u2 k (by omega), hu2,
              getD_set_ne u j k _ 0 (by omega)]
          rw [hval]
        · rw [if_neg htk, hu k (by omega), zero_mul]

lemma get_mobius_length (M : List (List Int)) :
    (get_mobius_of_column M).length = M.length := by
  unfold get_mobius_of_column
  rw [mobiusFrom_length, List.length_replicate]

/-- The recurrence satisfied by the returned Möbius vector. -/
lemma get_mobius_recur (M : List (List Int)) (j : Nat) (hj : j < M.length) :
    (get_mobius_of_column M).getD j 0 =
      if j = M.length - 1 then 1
      else -(∑ k in Finset.range M.length,
        if j < k then (get_mobius_of_column M).getD k 0 * entry M j k else 0) := by
  unfold get_mobius_of_column
  exact mobiusFrom_spec M M.length _ (by rw [List.length_replicate])
    (fun k _ => getD_replicate_self _ _ _) j hj

/-- The last Möbius value is always 1. -/
lemma get_mobius_last (M : List (List Int)) (h : 0 < M.length) :
    (get_mobius_of_column M).getD (M.length - 1) 0 = 1 := by
  rw [get_mobius_recur M (M.length - 1) (by omega), if_pos rfl]

/-! ### `submap_ge` against the spec's coarsening relation -/

lemma getD_mem {L : List Submap} {i : Nat} (hi : i < L.length) :
    L.getD i default ∈ L := by
  rw [List.getD_eq_getElem _ _ hi]
  exact List.getElem_mem hi

/-- With pairwise-disjoint blocks, a label belongs to at most one block. -/
lemma blocksDisjoint_unique (b : Submap) (hd : blocksDisjoint b)
    {k1 k2 : Nat} (h1 : k1 < b.vertices.length) (h2 : k2 < b.vertices.length)
    {x : Nat} (hx1 : x ∈ b.vertices.getD k1 []) (hx2 : x ∈ b.vertices.getD k2 []) :
    k1 = k2 := by
  rw [List.getD_eq_getElem _ _ h1] at hx1
  rw [List.getD_eq_getElem _ _ h2] at hx2
  by_contra hne
  rcases Nat.lt_or_ge k1 k2 with h | h
  · exact (List.pairwise_iff_getElem.mp hd k1 k2 h1 h2 h) x hx1 hx2
  · exact (List.pairwise_iff_getElem.mp hd k2 k1 h2 h1 (by omega)) x hx2 hx1

/-- On submaps with nonempty blocks, pairwise-disjoint target blocks and full
label coverage, `submap_ge a b` coincides with the spec's "b coarsens a". -/
lemma submap_ge_iff_coarsens (a b : Submap)
    (hne : ∀ v ∈ a.vertices, v ≠ [])
    (hd : blocksDisjoint b)
    (hcov : ∀ v ∈ a.vertices, ∀ x ∈ v, ∃ w ∈ b.vertices, x ∈ w) :
    submap_ge a b = true ↔ coarsens_spec b a := by
  constructor
  · intro hge v hv
    cases v with
    | nil => exact absurd rfl (hne [] hv)
    | cons n rest =>
      unfold submap_ge at hge
      rw [List.all_eq_true] at hge
      have hgev := hge (n :: rest) hv
      simp only [List.all_eq_true, decide_eq_true_eq] at hgev
      rcases findBlockIdx_cases b.vertices n with ⟨h1, h2⟩ | ⟨k, hk1, hk2, hk3, hk4⟩
      · obtain ⟨w, hw, hnw⟩ := hcov (n :: rest) hv n (List.mem_cons_self n rest)
        exact absurd hnw (h2 w hw)
      · refine ⟨k, ⟨hk2, ?_⟩, ?_⟩
        · intro x hx
          rcases List.mem_cons.mp hx with rfl | hxr
          · exact hk3
          · have hxi : _find_node_idx b x = _find_node_idx b n := hgev x hxr
            unfold _find_node_idx at hxi
            rw [hk1] at hxi
            rcases findBlockIdx_cases b.vertices x with ⟨h1, -⟩ | ⟨k2, hk21, hk22, hk23, -⟩
            · rw [h1] at hxi
              exact absurd hxi (by omega)
            · rw [hk21] at hxi
              have : k2 = k := by omega
              subst this
              exact hk23
        · rintro k2 ⟨hk2len, hk2sub⟩
          exact blocksDisjoint_unique b hd hk2len hk2
            (hk2sub n (List.mem_cons_self n rest)) hk3
  · intro hc
    unfold submap_ge
    rw [List.all_eq_true]
    intro v hv
    cases v with
    | nil => rfl
    | cons n rest =>
      obtain ⟨k, ⟨hklen, hsub⟩, -⟩ := hc (n :: rest) hv
      show (rest.all fun x => decide (_find_node_idx b x = _find_node_idx b n)) = true
      rw [List.all_eq_true]
      intro x hx
      have hn : _find_node_idx b n = (k : Int) :=
        disjoint_find_node_idx b hd k hklen n (hsub n (List.mem_cons_self n rest))
      have hxk : _find_node_idx b x = (k : Int) :=
        disjoint_find_node_idx b hd k hklen x (hsub x (List.mem_cons_of_mem n hx))
      rw [hn, hxk]
      simp

/-! ### Canonical block order -/

lemma getD_mem_of_lt {α : Type} (l : List α) (d : α) {i : Nat}
    (hi : i < l.length) : l.getD i d ∈ l := by
  rw [List.getD_eq_getElem _ _ hi]
  exact List.getElem_mem hi

lemma headD_le_of_sorted (v : List Nat)
    (hs : List.Sorted (fun a b => a ≤ b) v) (x : Nat) (hx : x ∈ v) :
    v.headD 0 ≤ x := by
  cases v with
  | nil => simp at hx
  | cons a t =>
    rcases List.mem_cons.mp hx with rfl | hxt
    · exact le_refl _
    · exact List.rel_of_sorted_cons hs x hxt

lemma headD_eq_min (v : List Nat) (hs : List.Sorted (fun a b => a ≤ b) v)
    (x : Nat) (hx : x ∈ v) (hmin : ∀ y ∈ v, x ≤ y) : v.headD 0 = x := by
  have h1 : v.headD 0 ≤ x := headD_le_of_sorted v hs x hx
  have h2 : x ≤ v.headD 0 := by
    cases v with
    | nil => simp at hx
    | cons a t => exact hmin a (List.mem_cons_self a t)
  omega

/-- The merged block keeps the head (= minimum label) of block `i` whenever
every label of block `j` is at least that head. -/
lemma headD_mergedBlock (V : List Vertex) (i j : Nat)
    (hne : V.getD i [] ≠ []) (hsi : List.Sorted (fun a b => a ≤ b) (V.getD i []))
    (hj : ∀ x ∈ V.getD j [], (V.getD i []).headD 0 ≤ x) :
    (mergedBlock V i j).headD 0 = (V.getD i []).headD 0 := by
  unfold mergedBlock
  have hperm := List.perm_insertionSort (fun a b => a ≤ b) (V.getD i [] ++ V.getD j [])
  have hsorted := List.sorted_insertionSort (fun a b => a ≤ b) (V.getD i [] ++ V.getD j [])
  apply headD_eq_min _ hsorted
  · rw [hperm.mem_iff, List.mem_append]
    left
    cases hV : V.getD i [] with
    | nil => exact absurd hV hne
    | cons a t => exact List.mem_cons_self a t
  · intro y hy
    rw [hperm.mem_iff, List.mem_append] at hy
    rcases hy with hy | hy
    · exact headD_le_of_sorted _ hsi y hy
    · exact hj y hy

/-- Every child block is nonempty and sorted when the parent is canonical. -/
lemma contract_blocks_sorted (s : Submap) (h : blocksCanonical s) (i j : Nat) :
    ∀ v ∈ contractVertices s.vertices i j,
      v ≠ [] ∧ List.Sorted (fun a b => a ≤ b) v := by
  intro v hv
  rcases mem_contractVertices _ _ _ _ hv with ⟨rfl, hi⟩ | hmem
  · constructor
    · unfold mergedBlock
      have hperm := List.perm_insertionSort (fun a b => a ≤ b)
        (s.vertices.getD i [] ++ s.vertices.getD j [])
      have hlen := hperm.length_eq
      have hmemi := getD_mem_of_lt s.vertices [] hi
      have hnei := (h.1 _ hmemi).1
      intro hnil
      rw [hnil] at hlen
      simp only [List.length_nil, List.length_append] at hlen
      have : s.vertices.getD i [] = [] := List.eq_nil_of_length_eq_zero (by omega)
      exact hnei this
    · exact List.sorted_insertionSort _ _
  · exact h.1 v hmem

/-- Pointwise strict comparison of block heads from the canonical order. -/
lemma heads_lt (V : List Vertex)
    (hH : List.Sorted (fun a b => a < b) (V.map (fun v => v.headD 0)))
    {a b : Nat} (hab : a < b) (hb : b < V.length) :
    (V.getD a []).headD 0 < (V.getD b []).headD 0 := by
  have ha : a < V.length := by omega
  have ham : a < (V.map (fun v => v.headD 0)).length := by
    rw [List.length_map]; omega
  have hbm : b < (V.map (fun v => v.headD 0)).length := by
    rw [List.length_map]; omega
  have := List.pairwise_iff_getElem.mp hH a b ham hbm hab
  rw [List.getElem_map, List.getElem_map] at this
  rw [List.getD_eq_getElem _ _ ha, List.getD_eq_getElem _ _ hb]
  exact this

/-- Degenerate contraction positions (`i = j` or `j` out of range) never drop
a block: the child block list is the parent's with position `i` replaced by
the merged block (which, there, has the same head). -/
lemma contractVertices_degenerate (V : List Vertex) (i j : Nat)
    (hdeg : i = j ∨ V.length ≤ j) :
    contractVertices V i j =
      (List.range V.length).map
        (fun k => if k = i then mergedBlock V i j else V.getD k []) := by
  apply filterMap_congr_some
  intro k hk
  have hkm : k < V.length := List.mem_range.mp hk
  by_cases hki : k = i
  · rw [if_pos hki, if_pos hki]
  · rw [if_neg hki]
    have hkj : k ≠ j := by
      rcases hdeg with rfl | hlen
      · exact hki
      · omega
    rw [if_neg hkj, if_neg hki]

/-- Canonical-ordering preservation for the child heads: main case
`i < j < V.length`. -/
lemma contract_heads_sorted_main (V : List Vertex) (i j : Nat)
    (hij : i < j) (hj : j < V.length)
    (hblocks : ∀ v ∈ V, v ≠ [] ∧ List.Sorted (fun a b => a ≤ b) v)
    (hH : List.Sorted (fun a b => a < b) (V.map (fun v => v.headD 0))) :
    List.Sorted (fun a b => a < b)
      ((contractVertices V i j).map (fun v => v.headD 0)) := by
  have hi : i < V.length := by omega
  have hmerged : (mergedBlock V i j).headD 0 = (V.getD i []).headD 0 := by
    apply headD_mergedBlock V i j
      ((hblocks _ (getD_mem_of_lt V [] hi)).1)
      ((hblocks _ (getD_mem_of_lt V [] hi)).2)
    intro x hx
    have hlt : (V.getD i []).headD 0 < (V.getD j []).headD 0 := heads_lt V hH hij hj
    have hle : (V.getD j []).headD 0 ≤ x :=
      headD_le_of_sorted _ ((hblocks _ (getD_mem_of_lt V [] hj)).2) x hx
    omega
  rw [contractVertices_eq_append V i j hij hj, List.map_append,
    List.map_map, List.map_map]
  have hA : ((List.range j).map
      ((fun v => v.headD 0) ∘ fun k => if k = i then mergedBlock V i j else V.getD k [])) =
      (List.range j).map (fun k => (V.getD k []).headD 0) := by
    apply List.map_congr_left
    intro k _
    simp only [Function.comp_apply]
    by_cases hki : k = i
    · rw [if_pos hki, hki, hmerged]
    · rw [if_neg hki]
  rw [hA]
  have hB : ((List.range (V.length - 1 - j)).map
      ((fun v => v.headD 0) ∘ fun t => V.getD (j + 1 + t) [])) =
      (List.range (V.length - 1 - j)).map (fun t => (V.getD (j + 1 + t) []).headD 0) := by
    apply List.map_congr_left
    intro t _
    simp only [Function.comp_apply]
  rw [hB]
  rw [List.Sorted, List.pairwise_append]
  refine ⟨?_, ?_, ?_⟩
  · rw [List.pairwise_map]
    apply List.Pairwise.imp_of_mem ?_ (List.pairwise_lt_range j)
    intro a b ha hb hab
    exact heads_lt V hH hab (by have := List.mem_range.mp hb; omega)
  · rw [List.pairwise_map]
    apply List.Pairwise.imp_of_mem ?_ (List.pairwise_lt_range _)
    intro a b ha hb hab
    exact heads_lt V hH (by omega) (by have := List.mem_range.mp hb; omega)
  · intro x hx y hy
    obtain ⟨a, ha, rfl⟩ := List.mem_map.mp hx
    obtain ⟨b, hb, rfl⟩ := List.mem_map.mp hy
    have haj : a < j := List.mem_range.mp ha
    have hbr : b < V.length - 1 - j := List.mem_range.mp hb
    exact heads_lt V hH (by omega) (by omega)

/-- Canonical form is unique: two canonical block sequences with the same
members are equal, so elementwise comparison decides partition equality. -/
lemma canonical_vertices_unique (t u : Submap)
    (ht : blocksCanonical t) (hu : blocksCanonical u)
    (hm : ∀ v, v ∈ t.vertices ↔ v ∈ u.vertices) : t.vertices = u.vertices := by
  have hnd : ∀ w : Submap, blocksCanonical w → w.vertices.Nodup := by
    intro w hw
    apply List.Nodup.of_map (fun v => v.headD 0)
    exact hw.2.imp (fun h => by omega)
  have hperm : t.vertices.Perm u.vertices :=
    (List.perm_ext_iff_of_nodup (hnd t ht) (hnd u hu)).mpr hm
  have hst : t.vertices.Pairwise (fun v w => v.headD 0 < w.headD 0) :=
    List.pairwise_map.mp ht.2
  have hsu : u.vertices.Pairwise (fun v w => v.headD 0 < w.headD 0) :=
    List.pairwise_map.mp hu.2
  exact @List.eq_of_perm_of_sorted _ _
    ⟨fun a b h1 h2 => absurd h2 (by omega)⟩ _ _ hperm hst hsu

/-! ### Enumeration order: invariants of `_handle` -/

lemma firstIdx_cons (a : Submap) (t : List Submap) (x : Submap) :
    firstIdx (a :: t) x = if a = x then 0 else firstIdx t x + 1 := rfl

lemma firstIdx_append_left (L M : List Submap) (x : Submap) (hx : x ∈ L) :
    firstIdx (L ++ M) x = firstIdx L x := by
  induction L with
  | nil => simp at hx
  | cons a t ih =>
    rw [List.cons_append, firstIdx_cons, firstIdx_cons]
    by_cases hax : a = x
    · rw [if_pos hax, if_pos hax]
    · rw [if_neg hax, if_neg hax]
      have hxt : x ∈ t := by
        rcases List.mem_cons.mp hx with rfl | h
        · exact absurd rfl hax
        · exact h
      rw [ih hxt]

lemma firstIdx_append_not_mem (L M : List Submap) (x : Submap) (hx : x ∉ L) :
    firstIdx (L ++ M) x = L.length + firstIdx M x := by
  induction L with
  | nil => simp
  | cons a t ih =>
    rw [List.cons_append, firstIdx_cons]
    have hax : a ≠ x := fun h => hx (h ▸ List.mem_cons_self a t)
    rw [if_neg hax, ih (fun h => hx (List.mem_cons_of_mem a h)), List.length_cons]
    omega

lemma firstIdx_lt_length (L : List Submap) (x : Submap) (hx : x ∈ L) :
    firstIdx L x < L.length := by
  induction L with
  | nil => simp at hx
  | cons a t ih =>
    rw [firstIdx_cons]
    by_cases hax : a = x
    · rw [if_pos hax]
      simp
    · rw [if_neg hax, List.length_cons]
      have hxt : x ∈ t := by
        rcases List.mem_cons.mp hx with rfl | h
        · exact absurd rfl hax
        · exact h
      have := ih hxt
      omega

/-- Every submap in the set is preceded by all of its children that are in
the set (the spec's enumeration-order invariant, over first-occurrence
indices). -/
def childOrdered (L : List Submap) : Prop :=
  ∀ t ∈ L, ∀ c ∈ get_direct_submaps t, c ∈ L → firstIdx L c < firstIdx L t

/-- The set is closed under children: when a submap was inserted, all its
children had been inserted before. -/
def childClosed (L : List Submap) : Prop :=
  ∀ t ∈ L, ∀ c ∈ get_direct_submaps t, c ∈ L

/-- Invariant carried by the `_all_submaps` accumulator. -/
def HandleInv (L : List Submap) : Prop :=
  L.Nodup ∧ childClosed L ∧ childOrdered L

lemma HandleInv_nil : HandleInv [] :=
  ⟨List.nodup_nil, fun t ht => absurd ht (List.not_mem_nil t),
    fun t ht => absurd ht (List.not_mem_nil t)⟩

lemma in_submap_array_iff (L : List Submap) (s : Submap) :
    in_submap_array L s = true ↔ s ∈ L := by
  unfold in_submap_array submap_eq
  rw [List.any_eq_true]
  constructor
  · rintro ⟨t, ht, h⟩
    rw [decide_eq_true_eq] at h
    exact h ▸ ht
  · intro h
    exact ⟨s, h, by simp⟩

/-- Appending a fresh element whose children are already present preserves
the accumulator invariant. -/
lemma HandleInv_append_one (L : List Submap) (s : Submap)
    (hinv : HandleInv L) (hs : s ∉ L)
    (hch : ∀ c ∈ get_direct_submaps s, c ∈ L) :
    HandleInv (L ++ [s]) := by
  obtain ⟨hnd, hcc, hco⟩ := hinv
  refine ⟨?_, ?_, ?_⟩
  · rw [List.nodup_append]
    refine ⟨hnd, List.nodup_singleton s, ?_⟩
    intro a ha hamem
    rw [List.mem_singleton] at hamem
    exact hs (hamem ▸ ha)
  · intro t ht c hc
    rcases List.mem_append.mp ht with htL | hts
    · exact List.mem_append_left _ (hcc t htL c hc)
    · rw [List.mem_singleton] at hts
      subst hts
      exact List.mem_append_left _ (hch c hc)
  · intro t ht c hc hcL
    rcases List.mem_append.mp ht with htL | hts
    · have hcmem : c ∈ L := hcc t htL c hc
      rw [firstIdx_append_left L [s] c hcmem, firstIdx_append_left L [s] t htL]
      exact hco t htL c hc hcmem
    · rw [List.mem_singleton] at hts
      rw [hts] at hc
      rw [hts]
      have hcmem : c ∈ L := hch c hc
      rw [firstIdx_append_left L [s] c hcmem, firstIdx_append_not_mem L [s] s hs]
      have := firstIdx_lt_length L c hcmem
      omega

/-- Unfolding equation for `_handle`. -/
lemma handle_succ (fuel : Nat) (s : Submap) (acc : List Submap) :
    _handle (fuel+1) s acc =
      if in_submap_array acc s then acc
      else
        (if 1 < s.vertices.length then
          (get_direct_submaps s).foldl (fun a c => _handle fuel c a) acc
        else acc) ++ [s] := rfl

/-- The statement proved about `_handle` at a given fuel, by induction on the
fuel: the call only appends (`D`), inserts its argument, appends only
well-formed submaps of no larger block count, and preserves the accumulator
invariant. -/
def MasterStmt (fuel : Nat) : Prop :=
  ∀ (s : Submap) (acc : List Submap),
    WFsub s → s.vertices.length ≤ fuel → 0 < fuel →
    ∃ D, _handle fuel s acc = acc ++ D ∧
      s ∈ acc ++ D ∧
      (∀ t ∈ D, WFsub t ∧ t.vertices.length ≤ s.vertices.length) ∧
      (HandleInv acc → HandleInv (acc ++ D))

/-- The corresponding statement for the fold over a child list. -/
lemma handle_fold (fuel : Nat) (IH : MasterStmt fuel) :
    ∀ (cs : List Submap) (acc : List Submap),
    (∀ c ∈ cs, WFsub c ∧ c.vertices.length ≤ fuel) → 0 < fuel →
    ∃ D, cs.foldl (fun a c => _handle fuel c a) acc = acc ++ D ∧
      (∀ c ∈ cs, c ∈ acc ++ D) ∧
      (∀ t ∈ D, WFsub t ∧ ∃ c ∈ cs, t.vertices.length ≤ c.vertices.length) ∧
      (HandleInv acc → HandleInv (acc ++ D)) := by
  intro cs
  induction cs with
  | nil =>
    intro acc _ _
    exact ⟨[], by simp, by simp, by simp, by rw [List.append_nil]; exact id⟩
  | cons c cs ihc =>
    intro acc hcs hpos
    obtain ⟨hcwf, hclen⟩ := hcs c (List.mem_cons_self c cs)
    obtain ⟨D1, hD1, hmem1, hbnd1, hinv1⟩ := IH c acc hcwf hclen hpos
    rw [List.foldl_cons, hD1]
    obtain ⟨D2, hD2, hmem2, hbnd2, hinv2⟩ :=
      ihc (acc ++ D1) (fun x hx => hcs x (List.mem_cons_of_mem c hx)) hpos
    refine ⟨D1 ++ D2, ?_, ?_, ?_, ?_⟩
    · rw [hD2, List.append_assoc]
    · intro x hx
      rw [← List.append_assoc]
      rcases List.mem_cons.mp hx with rfl | hx2
      · exact List.mem_append_left D2 hmem1
      · exact hmem2 x hx2
    · intro t ht
      rcases List.mem_append.mp ht with h1 | h2
      · obtain ⟨hwf, hb⟩ := hbnd1 t h1
        exact ⟨hwf, c, List.mem_cons_self c cs, hb⟩
      · obtain ⟨hwf, x, hx, hb⟩ := hbnd2 t h2
        exact ⟨hwf, x, List.mem_cons_of_mem c hx, hb⟩
    · intro hinv
      rw [← List.append_assoc]
      exact hinv2 (hinv1 hinv)

/-- Master lemma for `_handle` (uncancelled run). -/
lemma handle_master : ∀ fuel, MasterStmt fuel := by
  intro fuel
  induction fuel with
  | zero =>
    intro s acc _ _ h
    omega
  | succ fuel ih =>
    intro s acc hWF hlen _
    by_cases hin : in_submap_array acc s = true
    · refine ⟨[], ?_, ?_, by simp, ?_⟩
      · rw [List.append_nil, handle_succ, if_pos hin]
      · rw [List.append_nil]
        exact (in_submap_array_iff acc s).mp hin
      · intro h
        rw [List.append_nil]
        exact h
    · have hnotin : s ∉ acc := fun hmem => hin ((in_submap_array_iff acc s).mpr hmem)
      have hinbool : in_submap_array acc s = false := Bool.eq_false_iff.mpr hin
      by_cases hbig : 1 < s.vertices.length
      · have hch := get_direct_submaps_wf s hWF
        have hcs : ∀ c ∈ get_direct_submaps s,
            WFsub c ∧ c.vertices.length ≤ fuel := by
          intro c hc
          obtain ⟨hwf, hl⟩ := hch c hc
          exact ⟨hwf, by omega⟩
        have hpos : 0 < fuel := by omega
        obtain ⟨D1, hD1, hmem1, hbnd1, hinv1⟩ :=
          handle_fold fuel ih (get_direct_submaps s) acc hcs hpos
        refine ⟨D1 ++ [s], ?_, ?_, ?_, ?_⟩
        · rw [handle_succ, if_neg (by rw [hinbool]; simp), if_pos hbig, hD1,
            List.append_assoc]
        · rw [← List.append_assoc]
          exact List.mem_append_right _ (List.mem_singleton.mpr rfl)
        · intro t ht
          rcases List.mem_append.mp ht with h1 | h2
          · obtain ⟨hwf, c, hc, hb⟩ := hbnd1 t h1
            have := (hch c hc).2
            exact ⟨hwf, by omega⟩
          · rw [List.mem_singleton] at h2
            subst h2
            exact ⟨hWF, le_refl _⟩
        · intro hinv
          have hinvD1 := hinv1 hinv
          have hsD1 : s ∉ D1 := by
            intro hmem
            obtain ⟨-, c, hc, hb⟩ := hbnd1 s hmem
            have := (hch c hc).2
            omega
          have hsaccD1 : s ∉ acc ++ D1 := by
            intro hmem
            rcases List.mem_append.mp hmem with h | h
            · exact hnotin h
            · exact hsD1 h
          rw [← List.append_assoc]
          exact HandleInv_append_one (acc ++ D1) s hinvD1 hsaccD1 hmem1
      · have hchnil := get_direct_submaps_nil s hWF (by omega)
        refine ⟨[s], ?_, ?_, ?_, ?_⟩
        · rw [handle_succ, if_neg (by rw [hinbool]; simp), if_neg hbig]
        · exact List.mem_append_right _ (List.mem_singleton.mpr rfl)
        · intro t ht
          rw [List.mem_singleton] at ht
          subst ht
          exact ⟨hWF, le_refl _⟩
        · intro hinv
          apply HandleInv_append_one acc s hinv hnotin
          rw [hchnil]
          intro c hc
          exact absurd hc (List.not_mem_nil c)

lemma in_submap_array_nil (s : Submap) : in_submap_array [] s = false := rfl

lemma from_graph_length (n : Nat) (E : List Edge) :
    (from_graph n E).vertices.length = n := by
  unfold from_graph
  rw [List.length_map, List.length_range]

lemma get_ordering_matrix_length (L : List Submap) :
    (get_ordering_matrix L).length = L.length := by
  unfold get_ordering_matrix
  rw [List.length_map, List.length_range]

lemma chromStep_eq (S : List Submap) (mob : List Int) (P : List Int) (i : Nat) :
    chromStep S mob P i =
      P.set ((S.getD i default).vertices.length - 1)
        (P.getD ((S.getD i default).vertices.length - 1) 0 + mob.getD i 0) := rfl

lemma chromFold_length (S : List Submap) (mob : List Int) :
    ∀ (l : List Nat) (P : List Int),
      (l.foldl (chromStep S mob) P).length = P.length := by
  intro l
  induction l with
  | nil => intro P; rfl
  | cons a t ih =>
    intro P
    rw [List.foldl_cons, ih]
    unfold chromStep
    rw [List.length_set]

lemma chromFold_getD_untouched (S : List Submap) (mob : List Int) (p : Nat) :
    ∀ (l : List Nat) (P : List Int),
      (∀ i ∈ l, (S.getD i default).vertices.length - 1 ≠ p) →
      (l.foldl (chromStep S mob) P).getD p 0 = P.getD p 0 := by
  intro l
  induction l with
  | nil => intro P _; rfl
  | cons a t ih =>
    intro P hl
    rw [List.foldl_cons, ih _ (fun i hi => hl i (List.mem_cons_of_mem a hi))]
    unfold chromStep
    exact getD_set_ne P _ p _ 0 (hl a (List.mem_cons_self a t))

/-! ### Claims -/

/-- C1 counterexample: on the enumerated submap list of the one-edge graph
(submap 0 = the fully contracted graph, submap 1 = the original), entry
(0,1) of the order matrix is 1, yet submap 1 is not a coarsening of submap 0
in the spec's sense: the block [0,1] of submap 0 is a subset of no block of
submap 1.  The code tests the converse direction (submap i coarsening
submap j). -/
theorem C1_counterexample :
    entry (get_ordering_matrix (get_all_submaps (from_graph 2 [(0,1)]))) 0 1 = 1 ∧
    ¬ coarsens_spec
        ((get_all_submaps (from_graph 2 [(0,1)])).getD 1 default)
        ((get_all_submaps (from_graph 2 [(0,1)])).getD 0 default) := by
  constructor
  · decide
  · intro hc
    have hL1 : (get_all_submaps (from_graph 2 [(0,1)])).getD 1 default =
        ⟨[[0],[1]], [(0,1)]⟩ := rfl
    have hL0 : (get_all_submaps (from_graph 2 [(0,1)])).getD 0 default =
        ⟨[[0,1]], []⟩ := rfl
    rw [hL0, hL1] at hc
    obtain ⟨k, ⟨hk, hsub⟩, -⟩ := hc [0,1] (List.mem_cons_self _ _)
    have hk2 : k < 2 := hk
    have hcase : k = 0 ∨ k = 1 := by omega
    rcases hcase with rfl | rfl
    · have h1 := hsub 1 (by simp)
      simp at h1
    · have h0 := hsub 0 (by simp)
      simp at h0

/-- C1 amended: for submap lists of partition-shaped submaps (nonempty,
pairwise-disjoint blocks, all over the same label set — true of every list
the pipeline enumerates), entry (i,j) of the order matrix with i ≤ j is 1
iff submap i is a coarsening of submap j, i.e. every block of submap j is a
subset of exactly one block of submap i. -/
theorem C1_order_matrix_amended (L : List Submap)
    (hne : ∀ s ∈ L, ∀ v ∈ s.vertices, v ≠ [])
    (hd : ∀ s ∈ L, blocksDisjoint s)
    (hcov : ∀ s ∈ L, ∀ t ∈ L, ∀ v ∈ s.vertices, ∀ x ∈ v, ∃ w ∈ t.vertices, x ∈ w)
    (i j : Nat) (hij : i ≤ j) (hj : j < L.length) :
    entry (get_ordering_matrix L) i j = 1 ↔
      coarsens_spec (L.getD i default) (L.getD j default) := by
  have hi : i < L.length := by omega
  have hmi : L.getD i default ∈ L := getD_mem hi
  have hmj : L.getD j default ∈ L := getD_mem hj
  have hiff := submap_ge_iff_coarsens (L.getD j default) (L.getD i default)
    (hne _ hmj) (hd _ hmi) (hcov _ hmj _ hmi)
  unfold entry get_ordering_matrix
  rw [getD_map_range _ _ _ _ hi, getD_map_range _ _ _ _ hj]
  constructor
  · intro h1
    by_cases hcond : i ≤ j ∧ submap_ge (L.getD j default) (L.getD i default) = true
    · exact hiff.mp hcond.2
    · rw [if_neg hcond] at h1
      exact absurd h1 (by decide)
  · intro h2
    rw [if_pos ⟨hij, hiff.mpr h2⟩]

/-- Witness for C1 amended on the enumerated list of the one-edge graph, at
entry (0,1): the fully contracted submap coarsens the original. -/
theorem C1_witness :
    entry (get_ordering_matrix
        ([⟨[[0,1]], []⟩, ⟨[[0],[1]], [(0,1)]⟩] : List Submap)) 0 1 = 1 ↔
      coarsens_spec
        (([⟨[[0,1]], []⟩, ⟨[[0],[1]], [(0,1)]⟩] : List Submap).getD 0 default)
        (([⟨[[0,1]], []⟩, ⟨[[0],[1]], [(0,1)]⟩] : List Submap).getD 1 default) :=
  C1_order_matrix_amended ([⟨[[0,1]], []⟩, ⟨[[0],[1]], [(0,1)]⟩] : List Submap)
    (by decide) (by decide) (by decide) 0 1 (by decide) (by decide)

/-- C3 counterexample: the claim "no two edges are equal as unordered pairs"
fails for children of `get_direct_submaps`.  The triangle graph is
well-formed, yet its first child (contracting edge (0,1)) has the edge list
`[(0,1), (0,1)]`: positions 0 and 1 hold the same unordered pair. -/
theorem C3_counterexample :
    WFsub (from_graph 3 [(0,1),(0,2),(1,2)]) ∧
    ((get_direct_submaps (from_graph 3 [(0,1),(0,2),(1,2)])).getD 0 default).edges
      = [(0,1), (0,1)] ∧
    ¬ edges_nodup
      ((get_direct_submaps (from_graph 3 [(0,1),(0,2),(1,2)])).getD 0 default).edges := by
  refine ⟨by decide, by decide, by decide⟩

/-- C3 amended: `from_graph` of a well-formed simple graph satisfies all the
Submap invariants (valid distinct edge indices, no duplicate unordered
pair), and every child produced by `get_direct_submaps` from a well-formed
submap has every edge's block indices valid and distinct (no self-loop);
duplicate edges (as unordered pairs), however, can appear in children. -/
theorem C3_invariants_amended (n : Nat) (E : List Edge) (s : Submap)
    (hE : edges_wf n E) (hEd : edges_nodup E) (hs : WFsub s) :
    (WFsub (from_graph n E) ∧ edges_nodup (from_graph n E).edges) ∧
    ∀ c ∈ get_direct_submaps s, WFsub c := by
  refine ⟨⟨?_, ?_⟩, ?_⟩
  · intro e he
    have hn : (from_graph n E).vertices.length = n := by
      unfold from_graph
      rw [List.length_map, List.length_range]
    rw [hn]
    exact hE e he
  · exact hEd
  · intro c hc
    exact (get_direct_submaps_wf s hs c hc).1

/-- Witness for C3 amended at the triangle graph. -/
theorem C3_invariants_witness :
    (WFsub (from_graph 3 [(0,1),(0,2),(1,2)]) ∧
      edges_nodup (from_graph 3 [(0,1),(0,2),(1,2)]).edges) ∧
    ∀ c ∈ get_direct_submaps (from_graph 3 [(0,1),(0,2),(1,2)]), WFsub c :=
  C3_invariants_amended 3 [(0,1),(0,2),(1,2)] (from_graph 3 [(0,1),(0,2),(1,2)])
    (by decide) (by decide) (by decide)

/-- C7 counterexample: on an arbitrary submap list the diagonal of the order
matrix need not be 1.  For a submap whose blocks are not disjoint (label 0
appears in blocks 0 and 2), `submap_ge` fails on itself — the labels of
block `[0,1]` are found at the distinct first-block indices 0 and 1 — so
entry (0,0) is 0, not 1 as the claim states. -/
theorem C7_counterexample :
    entry (get_ordering_matrix [⟨[[0], [1], [0, 1]], []⟩]) 0 0 ≠ 1 ∧
    entry (get_ordering_matrix [⟨[[0], [1], [0, 1]], []⟩]) 0 0 = 0 := by
  refine ⟨by decide, by decide⟩

/-- C7 amended: on every submap list whose members have pairwise-disjoint
blocks (as all pipeline lists do), the matrix returned by an uncancelled run
of `get_ordering_matrix` is unit-upper-triangular: entry (i,i) = 1 for every
index i, and entry (i,j) = 0 whenever i > j. -/
theorem C7_unit_upper_triangular (L : List Submap)
    (hd : ∀ s ∈ L, blocksDisjoint s) :
    (∀ i, i < L.length → entry (get_ordering_matrix L) i i = 1) ∧
    (∀ i j, j < i → entry (get_ordering_matrix L) i j = 0) := by
  constructor
  · intro i hi
    unfold entry get_ordering_matrix
    rw [getD_map_range _ _ _ _ hi, getD_map_range _ _ _ _ hi]
    rw [if_pos]
    refine ⟨le_refl i, ?_⟩
    apply submap_ge_refl
    apply hd
    rw [List.getD_eq_getElem _ _ hi]
    exact List.getElem_mem hi
  · intro i j hji
    by_cases hi : i < L.length
    · unfold entry get_ordering_matrix
      rw [getD_map_range _ _ _ _ hi]
      by_cases hj : j < L.length
      · rw [getD_map_range _ _ _ _ hj]
        rw [if_neg]
        rintro ⟨h1, -⟩
        omega
      · apply List.getD_eq_default
        rw [List.length_map, List.length_range]
        omega
    · have hrow : (get_ordering_matrix L).getD i [] = [] := by
        apply List.getD_eq_default
        unfold get_ordering_matrix
        rw [List.length_map, List.length_range]
        omega
      unfold entry
      rw [hrow]
      rfl

/-- Witness for C7 amended on the two-element submap list of the one-edge
graph. -/
theorem C7_witness :
    entry (get_ordering_matrix
      [⟨[[0,1]], []⟩, ⟨[[0],[1]], [(0,1)]⟩]) 1 1 = 1 ∧
    entry (get_ordering_matrix
      [⟨[[0,1]], []⟩, ⟨[[0],[1]], [(0,1)]⟩]) 1 0 = 0 :=
  ⟨(C7_unit_upper_triangular [⟨[[0,1]], []⟩, ⟨[[0],[1]], [(0,1)]⟩]
      (by decide)).1 1 (by decide),
   (C7_unit_upper_triangular [⟨[[0,1]], []⟩, ⟨[[0],[1]], [(0,1)]⟩]
      (by decide)).2 1 0 (by decide)⟩

/-- C5: for every nonempty m×m unit-upper-triangular 0/1 order matrix, the
vector returned by `get_mobius_of_column` satisfies the defining Möbius
identity — for every index s, the sum over all t of mu(t)*M[s][t] is 1 if
s = m-1 (the top element) and 0 otherwise — and in particular mu(m-1) = 1
and each mu(s) for s < m-1 equals the negated sum of mu(t) over all t with
t different from s and M[s][t] = 1. -/
theorem C5_mobius_identity (M : List (List Int))
    (hpos : 0 < M.length)
    (h01 : ∀ i, i < M.length → ∀ j, j < M.length →
      entry M i j = 0 ∨ entry M i j = 1)
    (hdiag : ∀ i, i < M.length → entry M i i = 1)
    (hlow : ∀ i, i < M.length → ∀ j, j < i → entry M i j = 0) :
    (∀ s, s < M.length →
      (∑ t in Finset.range M.length,
        (get_mobius_of_column M).getD t 0 * entry M s t) =
        if s = M.length - 1 then 1 else 0) ∧
    (get_mobius_of_column M).getD (M.length - 1) 0 = 1 ∧
    (∀ s, s < M.length - 1 →
      (get_mobius_of_column M).getD s 0 =
        -(∑ t in (Finset.range M.length).filter
            (fun t => t ≠ s ∧ entry M s t = 1),
          (get_mobius_of_column M).getD t 0)) := by
  refine ⟨?_, get_mobius_last M hpos, ?_⟩
  · intro s hs
    by_cases hse : s = M.length - 1
    · rw [if_pos hse]
      rw [Finset.sum_eq_single_of_mem (M.length - 1)
        (Finset.mem_range.mpr (by omega))]
      · rw [get_mobius_last M hpos, hse, hdiag (M.length - 1) (by omega)]
        norm_num
      · intro t ht hne
        have htm : t < M.length := Finset.mem_range.mp ht
        rw [hlow s hs t (by omega), mul_zero]
    · rw [if_neg hse]
      have hrec := get_mobius_recur M s hs
      rw [if_neg hse] at hrec
      have hsplit : ∀ t ∈ Finset.range M.length,
          (get_mobius_of_column M).getD t 0 * entry M s t =
            (if s < t then (get_mobius_of_column M).getD t 0 * entry M s t else 0) +
            (if t = s then (get_mobius_of_column M).getD s 0 else 0) := by
        intro t ht
        have htm : t < M.length := Finset.mem_range.mp ht
        rcases Nat.lt_trichotomy t s with h | h | h
        · rw [hlow s hs t h, mul_zero, if_neg (by omega), if_neg (by omega),
            add_zero]
        · subst h
          rw [hdiag t htm, mul_one, if_neg (by omega), if_pos rfl, zero_add]
        · rw [if_pos h, if_neg (by omega), add_zero]
      rw [Finset.sum_congr rfl hsplit, Finset.sum_add_distrib]
      rw [Finset.sum_ite_eq' (Finset.range M.length) s
        (fun _ => (get_mobius_of_column M).getD s 0)]
      rw [if_pos (Finset.mem_range.mpr hs)]
      linarith [hrec]
  · intro s hs
    have hrec := get_mobius_recur M s (by omega)
    rw [if_neg (by omega)] at hrec
    rw [hrec]
    congr 1
    rw [Finset.sum_filter]
    apply Finset.sum_congr rfl
    intro t ht
    have htm : t < M.length := Finset.mem_range.mp ht
    rcases Nat.lt_trichotomy t s with h | h | h
    · rw [if_neg (by omega)]
      have h0 : entry M s t = 0 := hlow s (by omega) t h
      rw [if_neg]
      rintro ⟨-, h1⟩
      rw [h0] at h1
      exact absurd h1 (by decide)
    · subst h
      rw [if_neg (by omega), if_neg]
      rintro ⟨h1, -⟩
      exact h1 rfl
    · rw [if_pos h]
      rcases h01 s (by omega) t htm with h0 | h1
      · rw [h0, mul_zero, if_neg]
        rintro ⟨-, h2⟩
        exact absurd h2 (by decide)
      · rw [h1, mul_one, if_pos (⟨by omega, rfl⟩ : t ≠ s ∧ (1:Int) = 1)]

/-- Witness for C5 on the concrete matrix [[1,1],[0,1]]. -/
theorem C5_witness :
    (∀ s, s < ([[1,1],[0,1]] : List (List Int)).length →
      (∑ t in Finset.range ([[1,1],[0,1]] : List (List Int)).length,
        (get_mobius_of_column [[1,1],[0,1]]).getD t 0 * entry [[1,1],[0,1]] s t) =
        if s = ([[1,1],[0,1]] : List (List Int)).length - 1 then 1 else 0) ∧
    (get_mobius_of_column [[1,1],[0,1]]).getD
      (([[1,1],[0,1]] : List (List Int)).length - 1) 0 = 1 ∧
    (∀ s, s < ([[1,1],[0,1]] : List (List Int)).length - 1 →
      (get_mobius_of_column [[1,1],[0,1]]).getD s 0 =
        -(∑ t in (Finset.range ([[1,1],[0,1]] : List (List Int)).length).filter
            (fun t => t ≠ s ∧ entry [[1,1],[0,1]] s t = 1),
          (get_mobius_of_column [[1,1],[0,1]]).getD t 0)) :=
  C5_mobius_identity [[1,1],[0,1]] (by decide) (by decide) (by decide) (by decide)

/-- C6: in the submap list returned by an uncancelled run of
`get_all_submaps` on a well-formed nonempty submap, every direct
edge-contraction child of a listed submap that occurs in the list appears at
a strictly smaller (first-occurrence) index than the submap itself, and the
original (uncontracted) input is the last element. -/
theorem C6_enumeration_order (s : Submap) (hWF : WFsub s)
    (hpos : 0 < s.vertices.length) :
    (∀ t ∈ get_all_submaps s, ∀ c ∈ get_direct_submaps t,
      c ∈ get_all_submaps s →
      firstIdx (get_all_submaps s) c < firstIdx (get_all_submaps s) t) ∧
    (get_all_submaps s).getLast? = some s := by
  obtain ⟨D, hD, hmem, hbnd, hinv⟩ :=
    handle_master s.vertices.length s [] hWF (le_refl _) hpos
  have hL : get_all_submaps s = D := by
    unfold get_all_submaps
    rw [hD, List.nil_append]
  constructor
  · rw [hL]
    have hfull := hinv HandleInv_nil
    rw [List.nil_append] at hfull
    exact hfull.2.2
  · obtain ⟨n, hn⟩ : ∃ n, s.vertices.length = n + 1 :=
      ⟨s.vertices.length - 1, by omega⟩
    unfold get_all_submaps
    rw [hn, handle_succ, if_neg (by rw [in_submap_array_nil]; simp)]
    exact List.getLast?_concat _

/-- Witness for C6 at the triangle graph. -/
theorem C6_witness :
    (∀ t ∈ get_all_submaps (from_graph 3 [(0,1),(0,2),(1,2)]),
      ∀ c ∈ get_direct_submaps t,
      c ∈ get_all_submaps (from_graph 3 [(0,1),(0,2),(1,2)]) →
      firstIdx (get_all_submaps (from_graph 3 [(0,1),(0,2),(1,2)])) c <
        firstIdx (get_all_submaps (from_graph 3 [(0,1),(0,2),(1,2)])) t) ∧
    (get_all_submaps (from_graph 3 [(0,1),(0,2),(1,2)])).getLast? =
      some (from_graph 3 [(0,1),(0,2),(1,2)]) :=
  C6_enumeration_order (from_graph 3 [(0,1),(0,2),(1,2)]) (by decide) (by decide)

/-- C8: for every well-formed simple graph on n ≥ 1 vertices, the coefficient
array returned by the uncancelled pipeline has entry n-1 exactly equal
to 1. -/
theorem C8_leading_coefficient (n : Nat) (E : List Edge)
    (hn : 0 < n) (hE : edges_wf n E) :
    (get_chromatic_polynomial n (get_all_submaps (from_graph n E))
        (get_ordering_matrix (get_all_submaps (from_graph n E)))).getD (n-1) 0
      = 1 := by
  obtain ⟨m, rfl⟩ : ∃ m, n = m + 1 := ⟨n - 1, by omega⟩
  have hsv : (from_graph (m+1) E).vertices.length = m + 1 := from_graph_length _ E
  have hWF : WFsub (from_graph (m+1) E) := by
    unfold WFsub
    rw [hsv]
    exact hE
  have hL : ∃ A, get_all_submaps (from_graph (m+1) E) = A ++ [from_graph (m+1) E] ∧
      ∀ t ∈ A, t.vertices.length < m + 1 ∧ 1 ≤ m := by
    unfold get_all_submaps
    rw [hsv, handle_succ, if_neg (by rw [in_submap_array_nil]; simp)]
    by_cases hbig : 1 < (from_graph (m+1) E).vertices.length
    · rw [if_pos hbig]
      have hch := get_direct_submaps_wf (from_graph (m+1) E) hWF
      have hcs : ∀ c ∈ get_direct_submaps (from_graph (m+1) E),
          WFsub c ∧ c.vertices.length ≤ m := by
        intro c hc
        obtain ⟨hwf, hl⟩ := hch c hc
        rw [hsv] at hl
        exact ⟨hwf, by omega⟩
      obtain ⟨D, hD, -, hbnd, -⟩ :=
        handle_fold m (handle_master m) (get_direct_submaps (from_graph (m+1) E)) []
          hcs (by rw [hsv] at hbig; omega)
      refine ⟨D, ?_, ?_⟩
      · rw [hD, List.nil_append]
      · intro t ht
        obtain ⟨-, c, hc, hb⟩ := hbnd t ht
        have h2 := (hch c hc).2
        rw [hsv] at h2
        rw [hsv] at hbig
        exact ⟨by omega, by omega⟩
    · rw [if_neg hbig]
      exact ⟨[], rfl, by intro t ht; exact absurd ht (List.not_mem_nil t)⟩
  obtain ⟨A, hAeq, hAlen⟩ := hL
  have hLlen : (get_all_submaps (from_graph (m+1) E)).length = A.length + 1 := by
    rw [hAeq, List.length_append, List.length_singleton]
  have hMlen : (get_ordering_matrix (get_all_submaps (from_graph (m+1) E))).length =
      A.length + 1 := by
    rw [get_ordering_matrix_length, hLlen]
  have hmulen : (get_mobius_of_column
      (get_ordering_matrix (get_all_submaps (from_graph (m+1) E)))).length =
      A.length + 1 := by
    rw [get_mobius_length, hMlen]
  have hmulast : (get_mobius_of_column
      (get_ordering_matrix (get_all_submaps (from_graph (m+1) E)))).getD A.length 0
      = 1 := by
    have h1 := get_mobius_last
      (get_ordering_matrix (get_all_submaps (from_graph (m+1) E)))
      (by rw [hMlen]; omega)
    rw [hMlen] at h1
    simpa using h1
  unfold get_chromatic_polynomial
  rw [hmulen, List.range_succ, List.foldl_append, List.foldl_cons, List.foldl_nil]
  have hcond : ∀ i ∈ List.range A.length,
      ((get_all_submaps (from_graph (m+1) E)).getD i default).vertices.length - 1
        ≠ m + 1 - 1 := by
    intro i hi
    have hiA : i < A.length := List.mem_range.mp hi
    have hgetD : (get_all_submaps (from_graph (m+1) E)).getD i default =
        A.getD i default := by
      rw [hAeq]
      exact List.getD_append A [from_graph (m+1) E] default i hiA
    rw [hgetD]
    have hmemA : A.getD i default ∈ A := getD_mem_of_lt A default hiA
    obtain ⟨h1, h2⟩ := hAlen _ hmemA
    omega
  have hP1len : ((List.range A.length).foldl
      (chromStep (get_all_submaps (from_graph (m+1) E))
        (get_mobius_of_column (get_ordering_matrix (get_all_submaps (from_graph (m+1) E)))))
      (List.replicate (m+1) 0)).length = m + 1 := by
    rw [chromFold_length, List.length_replicate]
  have hP1p : ((List.range A.length).foldl
      (chromStep (get_all_submaps (from_graph (m+1) E))
        (get_mobius_of_column (get_ordering_matrix (get_all_submaps (from_graph (m+1) E)))))
      (List.replicate (m+1) 0)).getD (m+1-1) 0 = 0 := by
    rw [chromFold_getD_untouched _ _ _ _ _ hcond, getD_replicate_self]
  have hgetDs : (get_all_submaps (from_graph (m+1) E)).getD A.length default =
      from_graph (m+1) E := by
    rw [hAeq, List.getD_append_right A [from_graph (m+1) E] default A.length (le_refl _),
      Nat.sub_self, List.getD_cons_zero]
  rw [chromStep_eq, hgetDs, hsv]
  rw [getD_set_self _ (m+1-1) _ 0 (by rw [hP1len]; omega), hP1p, hmulast]
  norm_num

/-- Witness for C8 at the one-edge graph on two vertices. -/
theorem C8_witness :
    (get_chromatic_polynomial 2 (get_all_submaps (from_graph 2 [(0,1)]))
        (get_ordering_matrix (get_all_submaps (from_graph 2 [(0,1)])))).getD 1 0
      = 1 :=
  C8_leading_coefficient 2 [(0,1)] (by decide) (by decide)

/-- C10: children of a canonically ordered submap (each block sorted
ascending, block sequence ordered by strictly increasing minimum label) are
canonically ordered as well; consequently the block order is a canonical
form — two canonical block sequences with the same members coincide — so the
elementwise block comparison performed by `submap_eq` identifies equal
partitions. -/
theorem C10_canonical_preserved (s : Submap) (h : blocksCanonical s) :
    (∀ c ∈ get_direct_submaps s, blocksCanonical c) ∧
    (∀ t u : Submap, blocksCanonical t → blocksCanonical u →
      (∀ v, v ∈ t.vertices ↔ v ∈ u.vertices) → t.vertices = u.vertices) := by
  constructor
  · intro c hc
    obtain ⟨e, he, hce⟩ := List.mem_map.mp hc
    rw [← hce]
    show blocksCanonical
      ⟨contractVertices s.vertices (min e.1 e.2) (max e.1 e.2),
        contractEdges s.edges (min e.1 e.2) (max e.1 e.2)⟩
    set i := min e.1 e.2 with hidef
    set j := max e.1 e.2 with hjdef
    have hij : i ≤ j := by rw [hidef, hjdef]; exact min_le_max
    constructor
    · exact contract_blocks_sorted s h i j
    · by_cases hmain : i < j ∧ j < s.vertices.length
      · exact contract_heads_sorted_main s.vertices i j hmain.1 hmain.2 h.1 h.2
      · have hdeg : i = j ∨ s.vertices.length ≤ j := by omega
        show List.Sorted (fun a b => a < b)
          ((contractVertices s.vertices i j).map (fun v => v.headD 0))
        rw [contractVertices_degenerate s.vertices i j hdeg, List.map_map]
        have hcong : ∀ k ∈ List.range s.vertices.length,
            ((fun v => v.headD 0) ∘
              (fun k => if k = i then mergedBlock s.vertices i j
                else s.vertices.getD k [])) k =
            (s.vertices.getD k []).headD 0 := by
          intro k hk
          have hkm : k < s.vertices.length := List.mem_range.mp hk
          simp only [Function.comp_apply]
          by_cases hki : k = i
          · rw [if_pos hki, hki]
            have hi : i < s.vertices.length := by omega
            apply headD_mergedBlock s.vertices i j
              ((h.1 _ (getD_mem_of_lt s.vertices [] hi)).1)
              ((h.1 _ (getD_mem_of_lt s.vertices [] hi)).2)
            intro x hx
            rcases hdeg with hij2 | hlen
            · rw [← hij2] at hx
              exact headD_le_of_sorted _
                ((h.1 _ (getD_mem_of_lt s.vertices [] hi)).2) x hx
            · rw [List.getD_eq_default _ _ hlen] at hx
              simp at hx
          · rw [if_neg hki]
        rw [List.map_congr_left hcong]
        have hfin : (List.range s.vertices.length).map
            (fun k => (s.vertices.getD k []).headD 0) =
            s.vertices.map (fun v => v.headD 0) := by
          conv_rhs => rw [← range_getD_map s.vertices []]
          rw [List.map_map]
          rfl
        rw [hfin]
        exact h.2
  · exact fun t u ht hu hm => canonical_vertices_unique t u ht hu hm

/-- Witness for C10 at the triangle graph. -/
theorem C10_witness :
    (∀ c ∈ get_direct_submaps (from_graph 3 [(0,1),(0,2),(1,2)]),
      blocksCanonical c) ∧
    (∀ t u : Submap, blocksCanonical t → blocksCanonical u →
      (∀ v, v ∈ t.vertices ↔ v ∈ u.vertices) → t.vertices = u.vertices) :=
  C10_canonical_preserved (from_graph 3 [(0,1),(0,2),(1,2)]) (by decide)

/-- C4: for the triangle graph (3 vertices, edges (0,1), (0,2), (1,2)), the
full pipeline — `from_graph`, `get_all_submaps`, `get_ordering_matrix`,
`get_chromatic_polynomial` with `n = 3` — yields the coefficient array
`[2, -3, 1]`, i.e. the polynomial `x^3 - 3x^2 + 2x`, whose value is `0` at
`q = 2` and `6` at `q = 3`. -/
theorem C4_triangle_pipeline :
    get_chromatic_polynomial 3
        (get_all_submaps (from_graph 3 [(0,1),(0,2),(1,2)]))
        (get_ordering_matrix (get_all_submaps (from_graph 3 [(0,1),(0,2),(1,2)])))
      = [2, -3, 1] ∧
    evalChromPoly [2, -3, 1] 2 = 0 ∧ evalChromPoly [2, -3, 1] 3 = 6 := by
  refine ⟨by decide, by decide, by decide⟩

/-- C2 (code bug): a cycle of `calculate` during which the graph-changed
signal is set does publish a result.  For the triangle graph with the flag
set throughout, `get_all_submaps` aborts with the empty partial set, yet
`calculate` runs the remaining pipeline steps on it and publishes the
all-zero coefficient array (`some` = `set_output_to_polynomial` reached),
which moreover differs from the correct published result of an uncancelled
cycle. -/
theorem C2_cancelled_cycle_publishes :
    calculate_cycle 3 [(0,1),(0,2),(1,2)] true = some [0, 0, 0] ∧
    calculate_cycle 3 [(0,1),(0,2),(1,2)] true ≠ none ∧
    calculate_cycle 3 [(0,1),(0,2),(1,2)] true ≠
      calculate_cycle 3 [(0,1),(0,2),(1,2)] false := by
  refine ⟨by decide, by decide, by decide⟩

/-- C9 (code bug): the code does not hold the graph mutex around every shared
graph access.  In the worker's cycle trace the edge-list snapshot taken by
`from_graph(n, edges)` (chrompoly.c:324) happens after `mtx_unlock`, and in
the editor's edge-creation path `add_edge` (chrompoly.c:470) writes the edge
list with no lock held, so the guardedness check fails on both traces. -/
theorem C9_graph_accesses_not_guarded :
    graphAccessesGuarded workerCycleTrace 0 = false ∧
    graphAccessesGuarded editorAddEdgeTrace 0 = false := by
  refine ⟨by decide, by decide⟩

end Chrompoly
